import Mathlib

set_option maxHeartbeats 1000000

/-!
Verification of the Manacher implementation in `src/manacher.cc`.

The C++ function `manacher` builds a transformed string `processed_s`
(`'#'` interleaved), computes the radius array `p` in a single pass with a
center/right-boundary pair `(C, R)`, and extracts every longest palindromic
substring.  The definitions below are a shallow embedding of that code on
`List Char`; the `while` expansion loop is given explicit fuel
(`t.length` at the call site, which is proved sufficient).
-/

/-- The slice of `s` of length `len` starting at `st`.
Matches C++ `s.substr(st, len)` (the count is truncated at the end). -/
def substrAt (s : List Char) (st len : Nat) : List Char := (s.drop st).take len

/-- The C++ `processed_s`: start from `"#"` and append, for each character of
`s`, that character and another `"#"`. -/
def processed (s : List Char) : List Char :=
  s.foldl (fun acc c => acc ++ [c, '#']) ['#']

/-- The local state of the C++ main loop: the radius array `p`, the center `C`
and the right boundary `R` of the rightmost palindrome found so far. -/
structure MSt where
  p : List Nat
  c : Nat
  r : Nat
  deriving Repr, DecidableEq

/-- The expansion `while` loop of the C++ code, threaded on the current radius
`k` (= `p[i]`): while `i - (1 + k) >= 0`, `i + (1 + k) < n` and the two end
characters agree, increment `k`.  Fueled; the call sites pass `t.length`,
which is enough fuel for the loop to run to completion. -/
def expand (t : List Char) (i : Nat) : Nat → Nat → Nat
  | 0, k => k
  | fuel + 1, k =>
    if 1 + k ≤ i ∧ i + (1 + k) < t.length ∧
        t.getD (i - (1 + k)) '#' = t.getD (i + (1 + k)) '#' then
      expand t i fuel (k + 1)
    else k

/-- One iteration of the C++ `for` loop at index `i`: seed `p[i]` from the
mirror when `R > i`, expand, store, and move `(C, R)` forward when the new
palindrome reaches past `R`. -/
def stepI (t : List Char) (st : MSt) (i : Nat) : MSt :=
  let seed := if i < st.r then min (st.r - i) (st.p.getD (2 * st.c - i) 0) else 0
  let pi := expand t i t.length seed
  let p2 := st.p.set i pi
  if st.r < i + pi then ⟨p2, i, i + pi⟩ else ⟨p2, st.c, st.r⟩

/-- The state before the loop: `p` all zero, `C = 0`, `R = 0`. -/
def initSt (t : List Char) : MSt := ⟨List.replicate t.length 0, 0, 0⟩

/-- The state after the first `j` iterations of the main loop
(i.e. after processing indices `1, …, j`). -/
def prefState (t : List Char) (j : Nat) : MSt :=
  (List.range' 1 j).foldl (stepI t) (initSt t)

/-- The state after the full pass `for (i = 1; i < n - 1; ++i)`. -/
def manacherPass (t : List Char) : MSt := prefState t (t.length - 2)

/-- The radius array `p` computed by the C++ code for input `s`. -/
def pArr (s : List Char) : List Nat := (manacherPass (processed s)).p

/-- The C++ `maxLen` computation: fold `if (p[i] > maxLen) maxLen = p[i]`
over the interior indices. -/
def maxLenOf (s : List Char) : Nat :=
  (List.range' 1 ((processed s).length - 2)).foldl
    (fun m i => if m < (pArr s).getD i 0 then (pArr s).getD i 0 else m) 0

/-- The C++ `manacher`: collect `s.substr((i - maxLen) / 2, maxLen)` for every
interior index `i` with `p[i] == maxLen`, in increasing order of `i`. -/
def manacher (s : List Char) : List (List Char) :=
  (List.range' 1 ((processed s).length - 2)).filterMap fun i =>
    if (pArr s).getD i 0 = maxLenOf s then
      some (substrAt s ((i - maxLenOf s) / 2) (maxLenOf s))
    else none

/-- The start indices `(i - maxLen) / 2` reported by the extraction loop,
in the order the substrings are pushed. -/
def manacherStarts (s : List Char) : List Nat :=
  (List.range' 1 ((processed s).length - 2)).filterMap fun i =>
    if (pArr s).getD i 0 = maxLenOf s then some ((i - maxLenOf s) / 2) else none

/-- `palAt t i k`: the span `[i - k, i + k]` of `t` stays inside `t` and is a
palindrome around `i` (symmetric characters agree). -/
def palAt (t : List Char) (i k : Nat) : Prop :=
  k ≤ i ∧ i + k < t.length ∧ ∀ j, j ≤ k → t.getD (i - j) '#' = t.getD (i + j) '#'

instance (t : List Char) (i k : Nat) : Decidable (palAt t i k) := by
  unfold palAt; exact inferInstance

/-- The true maximal palindrome radius at center `i` of `t`. -/
def maxRad (t : List Char) (i : Nat) : Nat := Nat.findGreatest (palAt t i) i

/-- Modelled from the spec: `palOcc s st len` says that the substring of `s`
of length `len ≥ 1` starting at `st` exists and is a palindrome. -/
def palOcc (s : List Char) (st len : Nat) : Prop :=
  1 ≤ len ∧ st + len ≤ s.length ∧ (substrAt s st len).reverse = substrAt s st len

instance (s : List Char) (st len : Nat) : Decidable (palOcc s st len) := by
  unfold palOcc; exact inferInstance

/-- Modelled from the spec: some palindromic substring of `s` of length `len`
exists. -/
def hasPalLen (s : List Char) (len : Nat) : Prop :=
  ∃ st ∈ List.range (s.length + 1), palOcc s st len

instance (s : List Char) (len : Nat) : Decidable (hasPalLen s len) := by
  unfold hasPalLen; exact inferInstance

/-- Modelled from the spec: the global maximum palindrome length of `s`
(0 when `s` has no nonempty palindromic substring, i.e. when `s` is empty). -/
def maxPalLen (s : List Char) : Nat := Nat.findGreatest (hasPalLen s) s.length

/-- Modelled from the spec: the sequence of all distinct-position longest
palindromic substrings of `s`, ordered by starting index ascending. -/
def longestExpected (s : List Char) : List (List Char) :=
  (List.range s.length).filterMap fun st =>
    if palOcc s st (maxPalLen s) then some (substrAt s st (maxPalLen s)) else none

/-! ### Generic list helpers -/

lemma getD_of_lt (l : List Char) (q : Nat) (d : Char) (h : q < l.length) :
    l.getD q d = l[q] := by
  simp [List.getD_eq_getElem?_getD, List.getElem?_eq_getElem h]

/-- A list of characters equals its reverse iff it is pointwise symmetric. -/
lemma reverse_eq_iff_getD (w : List Char) :
    w.reverse = w ↔
      ∀ q, q < w.length → w.getD q '#' = w.getD (w.length - 1 - q) '#' := by
  constructor
  · intro h q hq
    have h1 : w.reverse[q]? = w[w.length - 1 - q]? := List.getElem?_reverse hq
    rw [h] at h1
    rw [List.getD_eq_getElem?_getD, List.getD_eq_getElem?_getD, h1]
  · intro h
    refine List.ext_getElem? (fun q => ?_)
    rcases Nat.lt_or_ge q w.length with hq | hq
    · have h1 : w.reverse[q]? = w[w.length - 1 - q]? := List.getElem?_reverse hq
      rw [h1]
      have h2 := h q hq
      rw [List.getD_eq_getElem?_getD, List.getD_eq_getElem?_getD,
        List.getElem?_eq_getElem hq,
        List.getElem?_eq_getElem (show w.length - 1 - q < w.length by omega),
        Option.getD_some, Option.getD_some] at h2
      rw [List.getElem?_eq_getElem hq,
        List.getElem?_eq_getElem (show w.length - 1 - q < w.length by omega)]
      exact congrArg some h2.symm
    · rw [List.getElem?_eq_none (show w.reverse.length ≤ q by simpa using hq),
        List.getElem?_eq_none hq]

lemma length_substrAt (s : List Char) (st len : Nat) (h : st + len ≤ s.length) :
    (substrAt s st len).length = len := by
  simp [substrAt]
  omega

lemma substrAt_getD (s : List Char) (st len q : Nat) (hq : q < len)
    (h : st + len ≤ s.length) :
    (substrAt s st len).getD q '#' = s.getD (st + q) '#' := by
  have h1 : q < (substrAt s st len).length := by rw [length_substrAt s st len h]; omega
  have h2 : st + q < s.length := by omega
  rw [getD_of_lt _ q '#' h1, getD_of_lt s (st + q) '#' h2]
  simp [substrAt]

/-! ### Structure of the transformed sequence -/

lemma foldl_sep (s : List Char) (acc : List Char) :
    s.foldl (fun a c => a ++ [c, '#']) acc =
      acc ++ s.flatMap (fun c => [c, '#']) := by
  induction s generalizing acc with
  | nil => simp
  | cons c s ih => simp [List.foldl_cons, ih]

lemma processed_nil : processed [] = ['#'] := rfl

lemma processed_cons (c : Char) (s : List Char) :
    processed (c :: s) = '#' :: c :: processed s := by
  simp [processed, foldl_sep]

lemma length_processed (s : List Char) :
    (processed s).length = 2 * s.length + 1 := by
  induction s with
  | nil => rfl
  | cons c s ih => simp [processed_cons, ih]; omega

lemma processed_getD_even (s : List Char) (j : Nat) (h : j ≤ s.length) :
    (processed s).getD (2 * j) '#' = '#' := by
  induction s generalizing j with
  | nil =>
    have hj : j = 0 := by simpa using h
    subst hj; rfl
  | cons c s ih =>
    rcases j with _ | j
    · simp [processed_cons]
    · have h2 : 2 * (j + 1) = 2 * j + 1 + 1 := by omega
      rw [processed_cons, h2]
      simpa using ih j (by simpa using h)

lemma processed_getD_odd (s : List Char) (j : Nat) (h : j < s.length) :
    (processed s).getD (2 * j + 1) '#' = s.getD j '#' := by
  induction s generalizing j with
  | nil => simp at h
  | cons c s ih =>
    rcases j with _ | j
    · simp [processed_cons]
    · have h2 : 2 * (j + 1) + 1 = 2 * j + 1 + 1 + 1 := by omega
      rw [processed_cons, h2]
      simpa using ih j (by simpa using h)

lemma processed_getD_of_even (s : List Char) (pos : Nat)
    (hpos : pos < (processed s).length) (he : pos % 2 = 0) :
    (processed s).getD pos '#' = '#' := by
  have hl := length_processed s
  obtain ⟨q, rfl⟩ : ∃ q, pos = 2 * q := ⟨pos / 2, by omega⟩
  exact processed_getD_even s q (by omega)

lemma processed_getD_of_odd (s : List Char) (pos : Nat)
    (hpos : pos < (processed s).length) (he : pos % 2 = 1) :
    (processed s).getD pos '#' = s.getD (pos / 2) '#' := by
  have hl := length_processed s
  obtain ⟨q, rfl⟩ : ∃ q, pos = 2 * q + 1 := ⟨pos / 2, by omega⟩
  have hq : (2 * q + 1) / 2 = q := by omega
  rw [hq]
  exact processed_getD_odd s q (by omega)

/-! ### Basic facts about `palAt` and `maxRad` -/

lemma palAt_zero (t : List Char) (i : Nat) (h : i < t.length) : palAt t i 0 :=
  ⟨Nat.zero_le _, by omega, fun j hj => by simp [Nat.le_zero.mp hj]⟩

lemma palAt_mono (t : List Char) (i : Nat) {a b : Nat} (hab : a ≤ b)
    (h : palAt t i b) : palAt t i a :=
  ⟨le_trans hab h.1, by have := h.2.1; omega, fun j hj => h.2.2 j (le_trans hj hab)⟩

lemma maxRad_le_center (t : List Char) (i : Nat) : maxRad t i ≤ i :=
  Nat.findGreatest_le i

lemma palAt_maxRad (t : List Char) (i : Nat) (h : i < t.length) :
    palAt t i (maxRad t i) :=
  Nat.findGreatest_spec (Nat.zero_le i) (palAt_zero t i h)

lemma le_maxRad (t : List Char) (i k : Nat) (h : palAt t i k) : k ≤ maxRad t i :=
  Nat.le_findGreatest h.1 h

lemma maxRad_right (t : List Char) (i : Nat) (h : i < t.length) :
    i + maxRad t i < t.length :=
  (palAt_maxRad t i h).2.1

lemma maxRad_zero_left (t : List Char) : maxRad t 0 = 0 := by
  simp [maxRad]

lemma maxRad_last (t : List Char) (h : 1 ≤ t.length) :
    maxRad t (t.length - 1) = 0 := by
  rw [maxRad, Nat.findGreatest_eq_zero_iff]
  intro k hk hkle hp
  have := hp.2.1
  omega

/-- Reflection across the center of a palindromic span: if `a + b = 2 c` and
both ends lie within the radius-`k` palindrome at `c`, the characters agree. -/
lemma palAt_reflect (t : List Char) (c k : Nat) (h : palAt t c k)
    (a b : Nat) (hab : a + b = 2 * c) (hle : a ≤ b) (hb : b ≤ c + k) :
    t.getD a '#' = t.getD b '#' := by
  have hj : b - c ≤ k := by omega
  have ha : a = c - (b - c) := by omega
  have hbe : b = c + (b - c) := by omega
  rw [ha]
  conv_rhs => rw [hbe]
  exact h.2.2 (b - c) hj

/-! ### The expansion loop computes the maximal radius -/

lemma palAt_succ_of_guard (t : List Char) (i k : Nat) (hp : palAt t i k)
    (h1 : 1 + k ≤ i) (h2 : i + (1 + k) < t.length)
    (h3 : t.getD (i - (1 + k)) '#' = t.getD (i + (1 + k)) '#') :
    palAt t i (k + 1) := by
  refine ⟨by omega, by omega, fun j hj => ?_⟩
  rcases Nat.lt_or_ge j (k + 1) with hlt | hge
  · exact hp.2.2 j (by omega)
  · have hje : j = k + 1 := by omega
    subst hje
    have e1 : i - (k + 1) = i - (1 + k) := by omega
    have e2 : i + (k + 1) = i + (1 + k) := by omega
    rw [e1, e2]
    exact h3

/-- Given a valid start radius and enough fuel, the expansion loop returns
exactly the maximal palindrome radius at `i`. -/
lemma expand_eq_maxRad (t : List Char) (i : Nat) (fuel k : Nat)
    (hp : palAt t i k) (hf : maxRad t i ≤ k + fuel) :
    expand t i fuel k = maxRad t i := by
  induction fuel generalizing k with
  | zero =>
    have hk := le_maxRad t i k hp
    show k = maxRad t i
    omega
  | succ fuel ih =>
    by_cases hg : 1 + k ≤ i ∧ i + (1 + k) < t.length ∧
        t.getD (i - (1 + k)) '#' = t.getD (i + (1 + k)) '#'
    · rw [expand, if_pos hg]
      exact ih (k + 1) (palAt_succ_of_guard t i k hp hg.1 hg.2.1 hg.2.2) (by omega)
    · rw [expand, if_neg hg]
      have hk := le_maxRad t i k hp
      rcases Nat.eq_or_lt_of_le hk with he | hlt
      · exact he
      · exfalso
        have hilen : i < t.length := by have := hp.2.1; omega
        have hnext : palAt t i (k + 1) :=
          palAt_mono t i hlt (palAt_maxRad t i hilen)
        have ha1 := hnext.1
        have ha2 := hnext.2.1
        refine hg ⟨by omega, by omega, ?_⟩
        have e1 : i - (1 + k) = i - (k + 1) := by omega
        have e2 : i + (1 + k) = i + (k + 1) := by omega
        rw [e1, e2]
        exact hnext.2.2 (k + 1) (le_refl _)

/-! ### `getD` helpers -/

lemma getD_set_self {l : List Nat} {i v : Nat} (h : i < l.length) :
    (l.set i v).getD i 0 = v := by
  simp [List.getD_eq_getElem?_getD, List.getElem?_set_self h]

lemma getD_set_ne {l : List Nat} {i x v : Nat} (h : i ≠ x) :
    (l.set i v).getD x 0 = l.getD x 0 := by
  simp [List.getD_eq_getElem?_getD, List.getElem?_set_ne h]

lemma getD_replicate_zero (n x : Nat) :
    (List.replicate n (0 : Nat)).getD x 0 = 0 := by
  rw [List.getD_eq_getElem?_getD, List.getElem?_replicate]
  split <;> rfl

/-! ### The loop invariant -/

/-- Invariant of the main loop after the iterations `i = 1, …, j`:
the radius array holds the true maximal radii at all processed indices and
zero elsewhere, and `R = C + p[C]` for the stored center. -/
def LoopInv (t : List Char) (j : Nat) (st : MSt) : Prop :=
  st.p.length = t.length ∧
  (∀ x, 1 ≤ x → x ≤ j → st.p.getD x 0 = maxRad t x) ∧
  (∀ x, x = 0 ∨ j < x → st.p.getD x 0 = 0) ∧
  st.c ≤ j ∧
  st.r = st.c + maxRad t st.c

lemma initSt_inv (t : List Char) : LoopInv t 0 (initSt t) := by
  refine ⟨by simp [initSt], ?_, ?_, le_refl _, ?_⟩
  · intro x hx1 hx2; omega
  · intro x _; exact getD_replicate_zero _ _
  · simp [initSt, maxRad_zero_left]

/-- When the invariant holds and `R > i` at the next index `i = j + 1`, the
mirror index is in bounds and the mirror seed is a valid palindrome radius. -/
lemma seed_ok (t : List Char) (j : Nat) (st : MSt) (h : LoopInv t j st)
    (hi : j + 1 < t.length) (hir : j + 1 < st.r) :
    j + 1 < 2 * st.c ∧ 2 * st.c - (j + 1) < t.length ∧
    palAt t (j + 1) (min (st.r - (j + 1)) (st.p.getD (2 * st.c - (j + 1)) 0)) := by
  obtain ⟨hlen, hproc, hzero, hcj, hr⟩ := h
  have hpcc : maxRad t st.c ≤ st.c := maxRad_le_center t st.c
  have hci : st.c < j + 1 := by omega
  have hclen : st.c < t.length := by omega
  have hpalc : palAt t st.c (maxRad t st.c) := palAt_maxRad t st.c hclen
  have hrlen : st.c + maxRad t st.c < t.length := hpalc.2.1
  have h2c : j + 1 < 2 * st.c := by omega
  have hm1 : 1 ≤ 2 * st.c - (j + 1) := by omega
  have hmj : 2 * st.c - (j + 1) ≤ j := by omega
  have hmlen : 2 * st.c - (j + 1) < t.length := by omega
  have hpm : st.p.getD (2 * st.c - (j + 1)) 0 = maxRad t (2 * st.c - (j + 1)) :=
    hproc _ hm1 hmj
  refine ⟨h2c, hmlen, ?_⟩
  rw [hpm]
  have hpalm : palAt t (2 * st.c - (j + 1)) (maxRad t (2 * st.c - (j + 1))) :=
    palAt_maxRad t _ hmlen
  have hmm : maxRad t (2 * st.c - (j + 1)) ≤ 2 * st.c - (j + 1) :=
    maxRad_le_center t _
  refine ⟨le_trans (Nat.min_le_right _ _) (by omega), ?_, ?_⟩
  · have h1 : min (st.r - (j + 1)) (maxRad t (2 * st.c - (j + 1))) ≤
        st.r - (j + 1) := Nat.min_le_left _ _
    omega
  · intro x hx
    have hxr : x ≤ st.r - (j + 1) := le_trans hx (Nat.min_le_left _ _)
    have hxm : x ≤ maxRad t (2 * st.c - (j + 1)) :=
      le_trans hx (Nat.min_le_right _ _)
    have e1 : t.getD (j + 1 - x) '#' = t.getD (2 * st.c - (j + 1) + x) '#' := by
      rcases le_total (j + 1 - x) (2 * st.c - (j + 1) + x) with hle | hle
      · exact palAt_reflect t st.c (maxRad t st.c) hpalc _ _ (by omega) hle (by omega)
      · exact (palAt_reflect t st.c (maxRad t st.c) hpalc _ _ (by omega) hle
          (by omega)).symm
    have e2 : t.getD (2 * st.c - (j + 1) - x) '#' =
        t.getD (2 * st.c - (j + 1) + x) '#' := hpalm.2.2 x hxm
    have e3 : t.getD (2 * st.c - (j + 1) - x) '#' = t.getD (j + 1 + x) '#' := by
      rcases le_total (2 * st.c - (j + 1) - x) (j + 1 + x) with hle | hle
      · exact palAt_reflect t st.c (maxRad t st.c) hpalc _ _ (by omega) hle (by omega)
      · exact (palAt_reflect t st.c (maxRad t st.c) hpalc _ _ (by omega) hle
          (by omega)).symm
    rw [e1, ← e2, e3]

/-- The body of the main loop stores the true maximal radius at `j + 1`. -/
lemma stepI_radius (t : List Char) (j : Nat) (st : MSt) (h : LoopInv t j st)
    (hi : j + 1 < t.length) :
    expand t (j + 1) t.length
      (if j + 1 < st.r then
        min (st.r - (j + 1)) (st.p.getD (2 * st.c - (j + 1)) 0) else 0) =
      maxRad t (j + 1) := by
  have hmr : maxRad t (j + 1) ≤ j + 1 := maxRad_le_center t (j + 1)
  split
  case isTrue hir =>
    exact expand_eq_maxRad t _ t.length _ (seed_ok t j st h hi hir).2.2 (by omega)
  case isFalse hir =>
    exact expand_eq_maxRad t _ t.length 0 (palAt_zero t _ hi) (by omega)

lemma stepI_inv (t : List Char) (j : Nat) (st : MSt) (h : LoopInv t j st)
    (hj : j + 1 ≤ t.length - 2) :
    LoopInv t (j + 1) (stepI t st (j + 1)) := by
  have h3 : 3 ≤ t.length := by omega
  have hi : j + 1 < t.length := by omega
  obtain ⟨hlen, hproc, hzero, hcj, hr⟩ := h
  have hstep : stepI t st (j + 1) =
      if st.r < (j + 1) + maxRad t (j + 1) then
        MSt.mk (st.p.set (j + 1) (maxRad t (j + 1))) (j + 1)
          ((j + 1) + maxRad t (j + 1))
      else MSt.mk (st.p.set (j + 1) (maxRad t (j + 1))) st.c st.r := by
    simp only [stepI]
    rw [stepI_radius t j st ⟨hlen, hproc, hzero, hcj, hr⟩ hi]
  rw [hstep]
  have hset_len : (st.p.set (j + 1) (maxRad t (j + 1))).length = t.length := by
    simp [hlen]
  have hset_proc : ∀ x, 1 ≤ x → x ≤ j + 1 →
      (st.p.set (j + 1) (maxRad t (j + 1))).getD x 0 = maxRad t x := by
    intro x hx1 hx2
    rcases Nat.eq_or_lt_of_le hx2 with he | hlt
    · subst he
      exact getD_set_self (by omega)
    · rw [getD_set_ne (by omega)]
      exact hproc x hx1 (by omega)
  have hset_zero : ∀ x, x = 0 ∨ j + 1 < x →
      (st.p.set (j + 1) (maxRad t (j + 1))).getD x 0 = 0 := by
    intro x hx
    rw [getD_set_ne (by omega)]
    exact hzero x (by omega)
  split
  case isTrue hlt =>
    exact ⟨hset_len, hset_proc, hset_zero, le_refl _, rfl⟩
  case isFalse hge =>
    exact ⟨hset_len, hset_proc, hset_zero, (show st.c ≤ j + 1 by omega), hr⟩

lemma prefState_succ (t : List Char) (j : Nat) :
    prefState t (j + 1) = stepI t (prefState t j) (j + 1) := by
  unfold prefState
  rw [List.range'_concat, List.foldl_append]
  simp only [List.foldl_cons, List.foldl_nil, Nat.one_mul]
  rw [Nat.add_comm 1 j]

lemma prefState_inv (t : List Char) (j : Nat) (hj : j ≤ t.length - 2) :
    LoopInv t j (prefState t j) := by
  induction j with
  | zero => exact initSt_inv t
  | succ j ih =>
    rw [prefState_succ]
    exact stepI_inv t j _ (ih (by omega)) hj

/-- The radius array computed by the code agrees with the mathematical
maximal radius at every position of the transformed sequence. -/
lemma pArr_getD (s : List Char) (x : Nat) (hx : x < (processed s).length) :
    (pArr s).getD x 0 = maxRad (processed s) x := by
  have hlen := length_processed s
  have hInv := prefState_inv (processed s) ((processed s).length - 2) (le_refl _)
  obtain ⟨hplen, hproc, hzero, hcj, hr⟩ := hInv
  rcases Nat.eq_zero_or_pos x with hx0 | hx1
  · subst hx0
    rw [maxRad_zero_left]
    exact hzero 0 (Or.inl rfl)
  · rcases Nat.lt_or_ge x ((processed s).length - 1) with hxin | hxout
    · exact hproc x hx1 (by omega)
    · have hxe : x = (processed s).length - 1 := by omega
      rw [show pArr s = (prefState (processed s) ((processed s).length - 2)).p
            from rfl]
      rw [hxe, maxRad_last (processed s) (by omega)]
      exact hzero _ (by omega)

/-! ### Parity of the maximal radius -/

/-- A maximal palindrome in the transformed sequence ends on separators:
the maximal radius at an interior center has the parity of the center. -/
lemma maxRad_parity (s : List Char) (i : Nat) (h1 : 1 ≤ i)
    (h2 : i ≤ (processed s).length - 2) :
    maxRad (processed s) i % 2 = i % 2 := by
  have hlen := length_processed s
  have hi : i < (processed s).length := by omega
  have hp := palAt_maxRad (processed s) i hi
  have hk := maxRad_le_center (processed s) i
  have hir := hp.2.1
  by_contra hne
  have hodd : (i + maxRad (processed s) i) % 2 = 1 := by omega
  have hklt : maxRad (processed s) i < i := by
    rcases Nat.eq_or_lt_of_le hk with he | hlt
    · exfalso; omega
    · exact hlt
  have hbound : i + maxRad (processed s) i + 1 < (processed s).length := by omega
  have hnext : palAt (processed s) i (maxRad (processed s) i + 1) := by
    refine ⟨by omega, by omega, fun j hj => ?_⟩
    rcases Nat.lt_or_ge j (maxRad (processed s) i + 1) with hlt | hge
    · exact hp.2.2 j (by omega)
    · have hje : j = maxRad (processed s) i + 1 := by omega
      subst hje
      rw [processed_getD_of_even s _ (by omega) (by omega),
        processed_getD_of_even s _ (by omega) (by omega)]
  have := le_maxRad (processed s) i _ hnext
  omega

/-! ### The `maxLen` fold -/

lemma foldl_max_ge_init (f : Nat → Nat) (l : List Nat) (a : Nat) :
    a ≤ l.foldl (fun m i => if m < f i then f i else m) a := by
  induction l generalizing a with
  | nil => simp
  | cons x l ih =>
    simp only [List.foldl_cons]
    refine le_trans ?_ (ih _)
    split <;> omega

lemma foldl_max_ge (f : Nat → Nat) :
    ∀ (l : List Nat) (a i : Nat), i ∈ l →
      f i ≤ l.foldl (fun m i => if m < f i then f i else m) a := by
  intro l
  induction l with
  | nil => intro a i hi; simp at hi
  | cons x l ih =>
    intro a i hi
    simp only [List.foldl_cons]
    rcases List.mem_cons.mp hi with he | hm
    · subst he
      refine le_trans ?_ (foldl_max_ge_init f l _)
      split <;> omega
    · exact ih _ i hm

lemma foldl_max_cases (f : Nat → Nat) :
    ∀ (l : List Nat) (a : Nat),
      l.foldl (fun m i => if m < f i then f i else m) a = a ∨
      ∃ i ∈ l, l.foldl (fun m i => if m < f i then f i else m) a = f i := by
  intro l
  induction l with
  | nil => intro a; exact Or.inl rfl
  | cons x l ih =>
    intro a
    simp only [List.foldl_cons]
    rcases ih (if a < f x then f x else a) with he | ⟨i, hi, he⟩
    · by_cases hc : a < f x
      · right
        exact ⟨x, List.mem_cons_self x l, by rw [he, if_pos hc]⟩
      · left
        rw [he, if_neg hc]
    · right
      exact ⟨i, List.mem_cons_of_mem _ hi, he⟩

lemma maxLenOf_ge (s : List Char) (i : Nat) (h1 : 1 ≤ i)
    (h2 : i ≤ (processed s).length - 2) :
    (pArr s).getD i 0 ≤ maxLenOf s := by
  unfold maxLenOf
  exact foldl_max_ge (fun x => (pArr s).getD x 0)
    (List.range' 1 ((processed s).length - 2)) 0 i
    (by rw [List.mem_range'_1]; omega)

lemma maxLenOf_cases (s : List Char) :
    maxLenOf s = 0 ∨ ∃ i, 1 ≤ i ∧ i ≤ (processed s).length - 2 ∧
      maxLenOf s = (pArr s).getD i 0 := by
  rcases foldl_max_cases (fun i => (pArr s).getD i 0)
      (List.range' 1 ((processed s).length - 2)) 0 with he | ⟨i, hi, he⟩
  · exact Or.inl he
  · right
    rw [List.mem_range'_1] at hi
    exact ⟨i, by omega, by omega, he⟩

/-! ### Correspondence between radii in `processed s` and substrings of `s` -/

/-- A palindromic span of even endpoints in the transformed sequence yields a
palindromic substring of `s` at start `(i - k) / 2` of length `k`. -/
lemma palOcc_of_palAt (s : List Char) (i k : Nat) (hk : 1 ≤ k)
    (hp : palAt (processed s) i k) (hpar : (i + k) % 2 = 0) :
    palOcc s ((i - k) / 2) k := by
  have hlen := length_processed s
  obtain ⟨hki, hik, hchar⟩ := hp
  have h2st : 2 * ((i - k) / 2) = i - k := by omega
  have hstk : (i - k) / 2 + k ≤ s.length := by omega
  refine ⟨hk, hstk, ?_⟩
  rw [reverse_eq_iff_getD]
  intro q hq
  rw [length_substrAt s _ k hstk] at hq ⊢
  rw [substrAt_getD s _ k q hq hstk, substrAt_getD s _ k (k - 1 - q) (by omega) hstk]
  have ha : s.getD ((i - k) / 2 + q) '#' =
      (processed s).getD (2 * ((i - k) / 2 + q) + 1) '#' :=
    (processed_getD_odd s _ (by omega)).symm
  have hb : s.getD ((i - k) / 2 + (k - 1 - q)) '#' =
      (processed s).getD (2 * ((i - k) / 2 + (k - 1 - q)) + 1) '#' :=
    (processed_getD_odd s _ (by omega)).symm
  rw [ha, hb]
  have hsum : 2 * ((i - k) / 2 + q) + 1 + (2 * ((i - k) / 2 + (k - 1 - q)) + 1) =
      2 * i := by omega
  rcases le_total (2 * ((i - k) / 2 + q) + 1) (2 * ((i - k) / 2 + (k - 1 - q)) + 1)
      with hle | hle
  · exact palAt_reflect (processed s) i k ⟨hki, hik, hchar⟩ _ _ hsum hle (by omega)
  · exact (palAt_reflect (processed s) i k ⟨hki, hik, hchar⟩ _ _ (by omega) hle
      (by omega)).symm

/-- A palindromic substring of `s` at `st` of length `len` yields a palindromic
span at center `2 st + len` of the transformed sequence. -/
lemma palAt_of_palOcc (s : List Char) (st len : Nat) (h : palOcc s st len) :
    palAt (processed s) (2 * st + len) len := by
  obtain ⟨h1, h2, h3⟩ := h
  have hlen := length_processed s
  refine ⟨by omega, by omega, fun j hj => ?_⟩
  by_cases hpar : (2 * st + len + j) % 2 = 0
  · rw [processed_getD_of_even s _ (by omega) (by omega),
      processed_getD_of_even s _ (by omega) (by omega)]
  · have hpar1 : (2 * st + len + j) % 2 = 1 := by omega
    rw [processed_getD_of_odd s _ (by omega) (by omega),
      processed_getD_of_odd s _ (by omega) (by omega)]
    have hw := (reverse_eq_iff_getD (substrAt s st len)).mp h3
    have hwlen : (substrAt s st len).length = len := length_substrAt s st len h2
    have hwq := hw ((2 * st + len + j) / 2 - st) (by rw [hwlen]; omega)
    rw [hwlen] at hwq
    rw [substrAt_getD s st len _ (by omega) h2,
      substrAt_getD s st len _ (by omega) h2] at hwq
    have ea : st + ((2 * st + len + j) / 2 - st) = (2 * st + len + j) / 2 := by
      omega
    have eb : st + (len - 1 - ((2 * st + len + j) / 2 - st)) =
        (2 * st + len - j) / 2 := by omega
    rw [ea, eb] at hwq
    exact hwq.symm

/-! ### `maxPalLen` facts -/

lemma le_maxPalLen (s : List Char) (st len : Nat) (h : palOcc s st len) :
    len ≤ maxPalLen s := by
  have h1 := h.1
  have h2 := h.2.1
  exact Nat.le_findGreatest (by omega)
    ⟨st, by rw [List.mem_range]; omega, h⟩

lemma maxPalLen_occ (s : List Char) (h : maxPalLen s ≠ 0) :
    ∃ st, palOcc s st (maxPalLen s) := by
  have he : Nat.findGreatest (hasPalLen s) s.length = maxPalLen s := rfl
  obtain ⟨st, hmem, hocc⟩ := (Nat.findGreatest_eq_iff.mp he).2.1 h
  exact ⟨st, hocc⟩

/-! ### The fold maximum equals the mathematical maximum length -/

lemma pArr_length (s : List Char) : (pArr s).length = (processed s).length :=
  (prefState_inv (processed s) ((processed s).length - 2) (le_refl _)).1

lemma pArr_getD_zero_of_ge (s : List Char) (x : Nat)
    (hx : (processed s).length - 1 ≤ x) : (pArr s).getD x 0 = 0 := by
  rcases Nat.lt_or_ge x (processed s).length with hlt | hge
  · have hx1 : x = (processed s).length - 1 := by
      have := length_processed s; omega
    rw [pArr_getD s x hlt, hx1, maxRad_last]
    have := length_processed s; omega
  · rw [List.getD_eq_getElem?_getD, List.getElem?_eq_none]
    · rfl
    · rw [pArr_length]; omega

lemma maxLenOf_le_maxPalLen (s : List Char) : maxLenOf s ≤ maxPalLen s := by
  rcases maxLenOf_cases s with h0 | ⟨i, h1, h2, he⟩
  · omega
  · rw [he]
    rcases Nat.eq_zero_or_pos ((pArr s).getD i 0) with hz | hpos
    · omega
    · have hlen := length_processed s
      have hi : i < (processed s).length := by omega
      rw [pArr_getD s i hi] at hpos ⊢
      have hpar : (i + maxRad (processed s) i) % 2 = 0 := by
        have := maxRad_parity s i h1 h2; omega
      have hocc := palOcc_of_palAt s i _ hpos (palAt_maxRad (processed s) i hi) hpar
      exact le_maxPalLen s _ _ hocc

lemma maxPalLen_le_maxLenOf (s : List Char) : maxPalLen s ≤ maxLenOf s := by
  rcases Nat.eq_zero_or_pos (maxPalLen s) with hz | hpos
  · omega
  · obtain ⟨st, hocc⟩ := maxPalLen_occ s (by omega)
    have hpal := palAt_of_palOcc s st _ hocc
    have hlen := length_processed s
    have h1 := hocc.1
    have h2 := hocc.2.1
    have hi1 : 1 ≤ 2 * st + maxPalLen s := by omega
    have hi2 : 2 * st + maxPalLen s ≤ (processed s).length - 2 := by omega
    have hle := le_maxRad (processed s) _ _ hpal
    have hge := maxLenOf_ge s (2 * st + maxPalLen s) hi1 hi2
    rw [pArr_getD s _ (by omega)] at hge
    omega

lemma maxLenOf_eq_maxPalLen (s : List Char) : maxLenOf s = maxPalLen s :=
  le_antisymm (maxLenOf_le_maxPalLen s) (maxPalLen_le_maxLenOf s)

lemma one_le_maxLenOf (s : List Char) (h : s ≠ []) : 1 ≤ maxLenOf s := by
  have hlen := length_processed s
  have hsl : 1 ≤ s.length := List.length_pos.mpr h
  have hpal : palAt (processed s) 1 1 := by
    refine ⟨le_refl _, by omega, fun j hj => ?_⟩
    interval_cases j
    · rfl
    · rw [processed_getD_of_even s (1 - 1) (by omega) (by omega),
        processed_getD_of_even s (1 + 1) (by omega) (by omega)]
  have hr := le_maxRad (processed s) 1 1 hpal
  have hg := maxLenOf_ge s 1 (le_refl _) (by omega)
  rw [pArr_getD s 1 (by omega)] at hg
  omega

/-! ### Surgery on `filterMap` over ranges -/

lemma filterMap_range'_split {α : Type} (F : Nat → Option α) (a b c : Nat)
    (h : ∀ i, a + b ≤ i → i < a + b + c → F i = none) :
    (List.range' a (b + c)).filterMap F = (List.range' a b).filterMap F := by
  rw [show b + c = c + b by omega, ← List.range'_append_1 a b c,
    List.filterMap_append]
  have hnil : (List.range' (a + b) c).filterMap F = [] := by
    rw [List.filterMap_eq_nil_iff]
    intro x hx
    rw [List.mem_range'_1] at hx
    exact h x hx.1 hx.2
  rw [hnil, List.append_nil]

/-- `filterMap` over a range of two bounds agrees when everything past the
smaller bound is `none`. -/
lemma filterMap_range'_bounds {α : Type} (F : Nat → Option α) (a b b2 : Nat)
    (h : ∀ i, a + min b b2 ≤ i → F i = none) :
    (List.range' a b).filterMap F = (List.range' a b2).filterMap F := by
  rcases le_total b b2 with hle | hle
  · rw [show b2 = b + (b2 - b) by omega]
    exact (filterMap_range'_split F a b (b2 - b)
      (fun i hi _ => h i (by omega))).symm
  · rw [show b = b2 + (b - b2) by omega]
    exact filterMap_range'_split F a b2 (b - b2) (fun i hi _ => h i (by omega))

/-- `filterMap` over an even-length step-one range whose odd offsets are all
`none` collapses to a `filterMap` over the half-length range. -/
lemma filterMap_range'_halve {α : Type} (F : Nat → Option α) :
    ∀ (k c : Nat), (∀ j, j < k → F (c + 2 * j + 1) = none) →
      (List.range' c (2 * k)).filterMap F =
        (List.range k).filterMap (fun st => F (c + 2 * st)) := by
  intro k
  induction k with
  | zero => intro c h; rfl
  | succ k ih =>
    intro c h
    have ha : List.range' c (2 * (k + 1)) =
        c :: (c + 1) :: List.range' (c + 2) (2 * k) := by
      rw [show 2 * (k + 1) = 2 * k + 1 + 1 by omega, List.range'_succ,
        List.range'_succ]
    have hc1 : F (c + 1) = none := by
      have := h 0 (by omega)
      simpa using this
    have htail : (List.range' (c + 2) (2 * k)).filterMap F =
        (List.range k).filterMap (fun st => F (c + 2 + 2 * st)) := by
      refine ih (c + 2) (fun j hj => ?_)
      have := h (j + 1) (by omega)
      rw [show c + 2 + 2 * j + 1 = c + 2 * (j + 1) + 1 by omega]
      exact this
    have hmap : (List.range (k + 1)).filterMap (fun st => F (c + 2 * st)) =
        (F c).toList ++ (List.range k).filterMap (fun st => F (c + 2 + 2 * st)) := by
      rw [List.range_succ_eq_map, List.filterMap_cons]
      have hfm : (List.map Nat.succ (List.range k)).filterMap
          (fun st => F (c + 2 * st)) =
          (List.range k).filterMap (fun st => F (c + 2 + 2 * st)) := by
        rw [List.filterMap_map]
        refine List.filterMap_congr (fun st _ => ?_)
        show F (c + 2 * (st + 1)) = F (c + 2 + 2 * st)
        rw [show c + 2 * (st + 1) = c + 2 + 2 * st by omega]
      cases hFc : F c with
      | none => simpa [hFc] using hfm
      | some v => simpa [hFc] using hfm
    rw [ha, hmap, List.filterMap_cons, List.filterMap_cons, hc1, htail]
    cases hFc : F c with
    | none => simp [hFc]
    | some v => simp [hFc]

/-! ### When the extraction condition `p[i] == maxLen` can hold -/

lemma cond_false_hi (s : List Char) (hL : 1 ≤ maxLenOf s) (i : Nat)
    (hi : 2 * s.length + 1 - maxLenOf s ≤ i) :
    (pArr s).getD i 0 ≠ maxLenOf s := by
  intro h
  have hlen := length_processed s
  rcases Nat.lt_or_ge i ((processed s).length - 1) with hin | hout
  · have hrad : maxRad (processed s) i = maxLenOf s := by
      rw [← pArr_getD s i (by omega)]; exact h
    have hpal := palAt_maxRad (processed s) i (by omega)
    rw [hrad] at hpal
    have := hpal.2.1
    omega
  · rw [pArr_getD_zero_of_ge s i (by omega)] at h
    omega

lemma cond_false_lo (s : List Char) (i : Nat) (hi : i < maxLenOf s) :
    (pArr s).getD i 0 ≠ maxLenOf s := by
  intro h
  have hlen := length_processed s
  rcases Nat.lt_or_ge i ((processed s).length - 1) with hin | hout
  · have hrad : maxRad (processed s) i = maxLenOf s := by
      rw [← pArr_getD s i (by omega)]; exact h
    have := maxRad_le_center (processed s) i
    omega
  · rw [pArr_getD_zero_of_ge s i (by omega)] at h
    omega

lemma cond_false_par (s : List Char) (hL : 1 ≤ maxLenOf s) (x : Nat)
    (hx : (x + maxLenOf s) % 2 = 1) :
    (pArr s).getD x 0 ≠ maxLenOf s := by
  intro h
  have hlen := length_processed s
  rcases Nat.lt_or_ge x ((processed s).length - 1) with hin | hout
  · have hrad : maxRad (processed s) x = maxLenOf s := by
      rw [← pArr_getD s x (by omega)]; exact h
    rcases Nat.eq_zero_or_pos x with hx0 | hx1
    · subst hx0
      rw [maxRad_zero_left] at hrad
      omega
    · have := maxRad_parity s x hx1 (by omega)
      rw [hrad] at this
      omega
  · rw [pArr_getD_zero_of_ge s x (by omega)] at h
    omega

/-- At an aligned interior center `maxLen + 2 st`, the extraction condition
holds exactly when `s` has a palindromic substring of length `maxLen` at `st`. -/
lemma cond_iff_palOcc (s : List Char) (hne : s ≠ []) (st : Nat)
    (hst : st + maxLenOf s ≤ s.length) :
    (pArr s).getD (maxLenOf s + 2 * st) 0 = maxLenOf s ↔
      palOcc s st (maxLenOf s) := by
  have hL1 := one_le_maxLenOf s hne
  have hlen := length_processed s
  have hm1 : 1 ≤ s.length := List.length_pos.mpr hne
  have hi2 : maxLenOf s + 2 * st ≤ 2 * s.length - 1 := by omega
  rw [pArr_getD s _ (by omega)]
  constructor
  · intro h
    have hpal := palAt_maxRad (processed s) (maxLenOf s + 2 * st) (by omega)
    rw [h] at hpal
    have hpar : (maxLenOf s + 2 * st + maxLenOf s) % 2 = 0 := by omega
    have hocc := palOcc_of_palAt s _ _ hL1 hpal hpar
    rw [show (maxLenOf s + 2 * st - maxLenOf s) / 2 = st by omega] at hocc
    exact hocc
  · intro hocc
    have hup : maxRad (processed s) (maxLenOf s + 2 * st) ≤ maxLenOf s := by
      have := maxLenOf_ge s (maxLenOf s + 2 * st) (by omega) (by omega)
      rw [pArr_getD s _ (by omega)] at this
      exact this
    have hlo : maxLenOf s ≤ maxRad (processed s) (maxLenOf s + 2 * st) := by
      have hp := palAt_of_palOcc s st _ hocc
      rw [show 2 * st + maxLenOf s = maxLenOf s + 2 * st by omega] at hp
      exact le_maxRad _ _ _ hp
    omega

/-- The extraction loop over interior centers, with an arbitrary payload `f`
of the computed start index, equals the loop over all start positions of `s`
keeping those carrying a longest palindromic substring. -/
lemma filterMap_extract_chain {α : Type} (s : List Char) (hne : s ≠ [])
    (f : Nat → α) :
    (List.range' 1 ((processed s).length - 2)).filterMap
        (fun i => if (pArr s).getD i 0 = maxLenOf s then
          some (f ((i - maxLenOf s) / 2)) else none) =
      (List.range s.length).filterMap
        (fun st => if palOcc s st (maxLenOf s) then some (f st) else none) := by
  have hm1 : 1 ≤ s.length := List.length_pos.mpr hne
  have hL1 := one_le_maxLenOf s hne
  have hLm : maxLenOf s ≤ s.length := by
    rw [maxLenOf_eq_maxPalLen s]
    exact Nat.findGreatest_le _
  have hlen := length_processed s
  have h1 : (List.range' 1 ((processed s).length - 2)).filterMap
      (fun i => if (pArr s).getD i 0 = maxLenOf s then
        some (f ((i - maxLenOf s) / 2)) else none) =
      (List.range' 1 (maxLenOf s - 1 + 2 * (s.length + 1 - maxLenOf s))).filterMap
        (fun i => if (pArr s).getD i 0 = maxLenOf s then
          some (f ((i - maxLenOf s) / 2)) else none) := by
    apply filterMap_range'_bounds
    intro i hi
    rw [if_neg (cond_false_hi s hL1 i (by omega))]
  have h2 : (List.range' 1 (maxLenOf s - 1 + 2 * (s.length + 1 - maxLenOf s))).filterMap
      (fun i => if (pArr s).getD i 0 = maxLenOf s then
        some (f ((i - maxLenOf s) / 2)) else none) =
      (List.range' 1 (maxLenOf s - 1)).filterMap
        (fun i => if (pArr s).getD i 0 = maxLenOf s then
          some (f ((i - maxLenOf s) / 2)) else none) ++
      (List.range' (maxLenOf s) (2 * (s.length + 1 - maxLenOf s))).filterMap
        (fun i => if (pArr s).getD i 0 = maxLenOf s then
          some (f ((i - maxLenOf s) / 2)) else none) := by
    rw [show maxLenOf s - 1 + 2 * (s.length + 1 - maxLenOf s) =
      2 * (s.length + 1 - maxLenOf s) + (maxLenOf s - 1) by omega]
    rw [← List.range'_append_1 1 (maxLenOf s - 1) (2 * (s.length + 1 - maxLenOf s))]
    rw [List.filterMap_append]
    rw [show 1 + (maxLenOf s - 1) = maxLenOf s by omega]
  have h3 : (List.range' 1 (maxLenOf s - 1)).filterMap
      (fun i => if (pArr s).getD i 0 = maxLenOf s then
        some (f ((i - maxLenOf s) / 2)) else none) = [] := by
    rw [List.filterMap_eq_nil_iff]
    intro x hx
    rw [List.mem_range'_1] at hx
    rw [if_neg (cond_false_lo s x (by omega))]
  have h4 : (List.range' (maxLenOf s) (2 * (s.length + 1 - maxLenOf s))).filterMap
      (fun i => if (pArr s).getD i 0 = maxLenOf s then
        some (f ((i - maxLenOf s) / 2)) else none) =
      (List.range (s.length + 1 - maxLenOf s)).filterMap
        (fun st => if (pArr s).getD (maxLenOf s + 2 * st) 0 = maxLenOf s then
          some (f ((maxLenOf s + 2 * st - maxLenOf s) / 2)) else none) :=
    filterMap_range'_halve _ (s.length + 1 - maxLenOf s) (maxLenOf s)
      (fun j hj => by rw [if_neg (cond_false_par s hL1 _ (by omega))])
  have h5 : (List.range (s.length + 1 - maxLenOf s)).filterMap
      (fun st => if (pArr s).getD (maxLenOf s + 2 * st) 0 = maxLenOf s then
        some (f ((maxLenOf s + 2 * st - maxLenOf s) / 2)) else none) =
      (List.range (s.length + 1 - maxLenOf s)).filterMap
        (fun st => if palOcc s st (maxLenOf s) then some (f st) else none) := by
    refine List.filterMap_congr (fun st hst => ?_)
    rw [List.mem_range] at hst
    rw [show (maxLenOf s + 2 * st - maxLenOf s) / 2 = st by omega]
    by_cases hocc : palOcc s st (maxLenOf s)
    · rw [if_pos hocc, if_pos ((cond_iff_palOcc s hne st (by omega)).mpr hocc)]
    · rw [if_neg hocc, if_neg
        (fun hc => hocc ((cond_iff_palOcc s hne st (by omega)).mp hc))]
  have h6 : (List.range s.length).filterMap
      (fun st => if palOcc s st (maxLenOf s) then some (f st) else none) =
      (List.range (s.length + 1 - maxLenOf s)).filterMap
        (fun st => if palOcc s st (maxLenOf s) then some (f st) else none) := by
    rw [List.range_eq_range' s.length,
      List.range_eq_range' (s.length + 1 - maxLenOf s)]
    apply filterMap_range'_bounds
    intro st hst
    rw [if_neg]
    intro hocc
    have := hocc.2.1
    omega
  rw [h1, h2, h3, h4, h5, List.nil_append, h6]

/-- The code's output equals the spec-side list of all longest palindromic
substrings in ascending start order. -/
lemma manacher_eq_longestExpected (s : List Char) :
    manacher s = longestExpected s := by
  rcases eq_or_ne s [] with hnil | hne
  · subst hnil; rfl
  · have hE := maxLenOf_eq_maxPalLen s
    unfold manacher longestExpected
    rw [← hE]
    exact filterMap_extract_chain s hne (fun st => substrAt s st (maxLenOf s))

/-- The reported start indices equal the start positions of all longest
palindromic substrings, in ascending order. -/
lemma manacherStarts_eq (s : List Char) :
    manacherStarts s = (List.range s.length).filterMap
      (fun st => if palOcc s st (maxLenOf s) then some st else none) := by
  rcases eq_or_ne s [] with hnil | hne
  · subst hnil; rfl
  · unfold manacherStarts
    exact filterMap_extract_chain s hne (fun st => st)

/-! ### Remaining helper lemmas for the claims -/

/-- The palindromic span of `palAt` phrased as a slice equal to its reverse. -/
lemma palAt_slice_reverse (t : List Char) (i k : Nat) (hp : palAt t i k) :
    (substrAt t (i - k) (2 * k + 1)).reverse = substrAt t (i - k) (2 * k + 1) := by
  obtain ⟨hki, hik, hc⟩ := hp
  rw [reverse_eq_iff_getD]
  intro q hq
  rw [length_substrAt t _ _ (by omega)] at hq ⊢
  rw [substrAt_getD t _ _ q hq (by omega),
    substrAt_getD t _ _ (2 * k + 1 - 1 - q) (by omega) (by omega)]
  rcases le_total (i - k + q) (i - k + (2 * k + 1 - 1 - q)) with hle | hle
  · exact palAt_reflect t i k ⟨hki, hik, hc⟩ _ _ (by omega) hle (by omega)
  · exact (palAt_reflect t i k ⟨hki, hik, hc⟩ _ _ (by omega) hle (by omega)).symm

lemma filterMap_guard_sublist (q : Nat → Prop) [DecidablePred q] :
    ∀ l : List Nat,
      (l.filterMap (fun st => if q st then some st else none)).Sublist l := by
  intro l
  induction l with
  | nil => simp
  | cons x l ih =>
    by_cases hq : q x
    · simp only [List.filterMap_cons, if_pos hq]
      exact ih.cons₂ x
    · simp only [List.filterMap_cons, if_neg hq]
      exact ih.cons x

lemma pairwise_lt_filterMap_guard (q : Nat → Prop) [DecidablePred q] (n : Nat) :
    List.Pairwise (· < ·)
      ((List.range n).filterMap (fun st => if q st then some st else none)) :=
  (List.pairwise_lt_range n).sublist (filterMap_guard_sublist q (List.range n))

lemma manacher_eq_map_starts (s : List Char) :
    manacher s = (manacherStarts s).map (fun st => substrAt s st (maxLenOf s)) := by
  rcases eq_or_ne s [] with hnil | hne
  · subst hnil; rfl
  · rw [manacherStarts_eq, manacher_eq_longestExpected]
    unfold longestExpected
    rw [← maxLenOf_eq_maxPalLen s, List.map_filterMap]
    refine List.filterMap_congr (fun st hst => ?_)
    by_cases hq : palOcc s st (maxLenOf s) <;> simp [hq]

lemma manacher_mem_iff (s : List Char) (w : List Char) :
    w ∈ manacher s ↔ ∃ st, palOcc s st (maxPalLen s) ∧
      w = substrAt s st (maxPalLen s) := by
  rw [manacher_eq_longestExpected]
  unfold longestExpected
  rw [List.mem_filterMap]
  constructor
  · rintro ⟨st, hmem, hif⟩
    by_cases hq : palOcc s st (maxPalLen s)
    · rw [if_pos hq] at hif
      exact ⟨st, hq, (Option.some.inj hif).symm⟩
    · rw [if_neg hq] at hif
      exact absurd hif (by simp)
  · rintro ⟨st, hq, hw⟩
    refine ⟨st, ?_, by rw [if_pos hq, hw]⟩
    rw [List.mem_range]
    have h1 := hq.1
    have h2 := hq.2.1
    omega

/-! ### Claim theorems -/

/-- C1: for every input `S`, `manacher S` is exactly the sequence of all
distinct-position palindromic substrings of `S` whose length is the global
maximum palindrome length (each is a palindrome occurring at its position with
that maximal length, ordered by starting index ascending — this is
`longestExpected S`), and no palindromic substring of `S` is longer. -/
theorem manacher_output_spec (s : List Char) :
    manacher s = longestExpected s ∧
      ∀ st len, palOcc s st len → len ≤ maxPalLen s :=
  ⟨manacher_eq_longestExpected s, fun st len h => le_maxPalLen s st len h⟩

/-- C2: after the single pass, for every index `i` of `processed_s` the span
`[i - p[i], i + p[i]]` stays inside `processed_s` and is a palindrome (the
slice equals its own reverse), and `p[i]` is the largest radius with this
property. -/
theorem radius_array_invariant (s : List Char) (i : Nat)
    (h : i < (processed s).length) :
    palAt (processed s) i ((pArr s).getD i 0) ∧
    (substrAt (processed s) (i - (pArr s).getD i 0)
        (2 * (pArr s).getD i 0 + 1)).reverse =
      substrAt (processed s) (i - (pArr s).getD i 0)
        (2 * (pArr s).getD i 0 + 1) ∧
    ∀ k, palAt (processed s) i k → k ≤ (pArr s).getD i 0 := by
  rw [pArr_getD s i h]
  exact ⟨palAt_maxRad (processed s) i h,
    palAt_slice_reverse (processed s) i _ (palAt_maxRad (processed s) i h),
    fun k hk => le_maxRad (processed s) i k hk⟩

theorem radius_array_invariant_witness :
    1 < (processed ['a', 'b']).length ∧
      (palAt (processed ['a', 'b']) 1 ((pArr ['a', 'b']).getD 1 0) ∧
      (substrAt (processed ['a', 'b']) (1 - (pArr ['a', 'b']).getD 1 0)
          (2 * (pArr ['a', 'b']).getD 1 0 + 1)).reverse =
        substrAt (processed ['a', 'b']) (1 - (pArr ['a', 'b']).getD 1 0)
          (2 * (pArr ['a', 'b']).getD 1 0 + 1) ∧
      ∀ k, palAt (processed ['a', 'b']) 1 k →
        k ≤ (pArr ['a', 'b']).getD 1 0) :=
  ⟨by decide, radius_array_invariant ['a', 'b'] 1 (by decide)⟩

/-- C3: every index used by `manacher` is in bounds: the expansion compares
characters only when the loop guard certifies both endpoints lie in
`[0, n)`; the mirror access `p[2 C - i]`, performed only when `R > i`, has
`0 < 2 C - i < n`; and the final extraction start satisfies
`start_index + maxLen ≤ length S` (with `i - maxLen ≥ 0`). -/
theorem manacher_in_bounds (s : List Char) :
    (∀ i k, 1 + k ≤ i → i + (1 + k) < (processed s).length →
      i - (1 + k) < (processed s).length ∧
        i + (1 + k) < (processed s).length) ∧
    (∀ j, j + 1 ≤ (processed s).length - 2 →
      j + 1 < (prefState (processed s) j).r →
      j + 1 < 2 * (prefState (processed s) j).c ∧
        2 * (prefState (processed s) j).c - (j + 1) < (processed s).length) ∧
    (∀ i, 1 ≤ i → i ≤ (processed s).length - 2 →
      (pArr s).getD i 0 = maxLenOf s →
      maxLenOf s ≤ i ∧ (i - maxLenOf s) / 2 + maxLenOf s ≤ s.length) := by
  have hlen := length_processed s
  refine ⟨fun i k h1 h2 => ⟨by omega, h2⟩, fun j hj hr => ?_, fun i h1 h2 h3 => ?_⟩
  · have hInv := prefState_inv (processed s) j (by omega)
    have := seed_ok (processed s) j _ hInv (by omega) hr
    exact ⟨this.1, this.2.1⟩
  · have hrad : maxRad (processed s) i = maxLenOf s := by
      rw [← pArr_getD s i (by omega)]; exact h3
    have hle : maxLenOf s ≤ i := by
      rw [← hrad]; exact maxRad_le_center _ _
    have hpal := palAt_maxRad (processed s) i (by omega)
    rw [hrad] at hpal
    have hbound := hpal.2.1
    have hpar := maxRad_parity s i h1 h2
    rw [hrad] at hpar
    exact ⟨hle, by omega⟩

/-- C4 (counterexample): for input `"google"` the returned sequence does not
contain `"oo"` — the unique longest palindromic substring is `"goog"`. -/
theorem google_output_no_oo : "oo".toList ∉ manacher "google".toList := by
  decide

/-- C4 (amended): for input `"google"`, the sequence returned by `manacher`
contains the string `"goog"` as one of its elements (indeed it returns
exactly `["goog"]`). -/
theorem google_output_goog : manacher "google".toList = ["goog".toList] := by
  decide

/-- C5: `manacher` applied to the empty string returns the empty sequence. -/
theorem manacher_empty : manacher [] = [] := rfl

/-- C6: the starting positions of the returned substrings, in the order
returned, are strictly increasing, and the returned list is exactly the
corresponding substrings of `S`. -/
theorem manacher_starts_strictly_increasing (s : List Char) :
    List.Pairwise (· < ·) (manacherStarts s) ∧
      manacher s = (manacherStarts s).map
        (fun st => substrAt s st (maxLenOf s)) := by
  constructor
  · rw [manacherStarts_eq]
    exact pairwise_lt_filterMap_guard _ s.length
  · exact manacher_eq_map_starts s

/-- C7: for every interior index `i` with `p[i] = maxLen`, `i` and `maxLen`
have the same parity and `maxLen ≤ i`, so the integer division
`(i - maxLen) / 2` is exact. -/
theorem extraction_parity_exact (s : List Char) (i : Nat) (h1 : 1 ≤ i)
    (h2 : i ≤ (processed s).length - 2)
    (h3 : (pArr s).getD i 0 = maxLenOf s) :
    i % 2 = maxLenOf s % 2 ∧ maxLenOf s ≤ i ∧
      2 * ((i - maxLenOf s) / 2) = i - maxLenOf s := by
  have hlen := length_processed s
  have hrad : maxRad (processed s) i = maxLenOf s := by
    rw [← pArr_getD s i (by omega)]; exact h3
  have hpar := maxRad_parity s i h1 h2
  rw [hrad] at hpar
  have hle : maxLenOf s ≤ i := by
    rw [← hrad]; exact maxRad_le_center _ _
  exact ⟨hpar.symm, hle, by omega⟩

theorem extraction_parity_exact_witness :
    (1 ≤ 3 ∧ 3 ≤ (processed ['a', 'b', 'a']).length - 2 ∧
      (pArr ['a', 'b', 'a']).getD 3 0 = maxLenOf ['a', 'b', 'a']) ∧
    (3 % 2 = maxLenOf ['a', 'b', 'a'] % 2 ∧ maxLenOf ['a', 'b', 'a'] ≤ 3 ∧
      2 * ((3 - maxLenOf ['a', 'b', 'a']) / 2) = 3 - maxLenOf ['a', 'b', 'a']) :=
  ⟨⟨by decide, by decide, by decide⟩,
    extraction_parity_exact ['a', 'b', 'a'] 3 (by decide) (by decide) (by decide)⟩

/-- C8: the expansion loop terminates — any fuel of at least `n` iterations
gives the same result (the loop exits before exhausting it), the final radius
keeps `i + p[i]` below `n`, and the outer pass visits each interior index
exactly once; hence `manacher` is total. -/
theorem expansion_terminates (s : List Char) (i k fuel : Nat)
    (hp : palAt (processed s) i k) (hfuel : (processed s).length ≤ fuel) :
    expand (processed s) i fuel k =
      expand (processed s) i (processed s).length k ∧
    i + expand (processed s) i (processed s).length k < (processed s).length ∧
    List.Nodup (List.range' 1 ((processed s).length - 2)) := by
  have hi : i < (processed s).length := by have := hp.2.1; omega
  have hmr : maxRad (processed s) i < (processed s).length := by
    have := maxRad_le_center (processed s) i; omega
  have e1 := expand_eq_maxRad (processed s) i fuel k hp (by omega)
  have e2 := expand_eq_maxRad (processed s) i (processed s).length k hp (by omega)
  refine ⟨by rw [e1, e2], ?_, List.nodup_range' 1 _⟩
  rw [e2]
  exact maxRad_right (processed s) i hi

theorem expansion_terminates_witness :
    (palAt (processed ['a']) 1 0 ∧ (processed ['a']).length ≤ 5) ∧
    (expand (processed ['a']) 1 5 0 =
        expand (processed ['a']) 1 (processed ['a']).length 0 ∧
      1 + expand (processed ['a']) 1 (processed ['a']).length 0 <
        (processed ['a']).length ∧
      List.Nodup (List.range' 1 ((processed ['a']).length - 2))) :=
  ⟨⟨by decide, by decide⟩,
    expansion_terminates ['a'] 1 0 5 (by decide) (by decide)⟩

/-- C9: `manacher` is deterministic and pure — it is modelled as a pure
function of its input alone (the C++ code touches only locals), so equal
inputs give identical outputs on every invocation. -/
theorem manacher_deterministic (s1 s2 : List Char) (h : s1 = s2) :
    manacher s1 = manacher s2 :=
  congrArg manacher h

theorem manacher_deterministic_witness :
    (['a'] : List Char) = ['a'] ∧ manacher ['a'] = manacher ['a'] :=
  ⟨rfl, manacher_deterministic ['a'] ['a'] rfl⟩

/-- C10: for every non-empty input, `maxLen ≥ 1`, the returned sequence is
non-empty, and every returned string has length at least 1. -/
theorem manacher_nonempty_of_nonempty (s : List Char) (h : s ≠ []) :
    1 ≤ maxLenOf s ∧ manacher s ≠ [] ∧
      ∀ w ∈ manacher s, 1 ≤ w.length := by
  have hL1 := one_le_maxLenOf s h
  have hE := maxLenOf_eq_maxPalLen s
  obtain ⟨st, hocc⟩ := maxPalLen_occ s (by omega)
  refine ⟨hL1, ?_, ?_⟩
  · have hmem : substrAt s st (maxPalLen s) ∈ manacher s :=
      (manacher_mem_iff s _).mpr ⟨st, hocc, rfl⟩
    exact List.ne_nil_of_mem hmem
  · intro w hw
    obtain ⟨st2, hocc2, hweq⟩ := (manacher_mem_iff s w).mp hw
    rw [hweq, length_substrAt s st2 _ hocc2.2.1]
    exact hocc2.1

theorem manacher_nonempty_of_nonempty_witness :
    (['a'] : List Char) ≠ [] ∧
      (1 ≤ maxLenOf ['a'] ∧ manacher ['a'] ≠ [] ∧
        ∀ w ∈ manacher ['a'], 1 ≤ w.length) :=
  ⟨by decide, manacher_nonempty_of_nonempty ['a'] (by decide)⟩
